import Mathlib

/-!
Shallow embedding of the voice-memo server in `src/app.py`: the
timestamped blob store (`save_wav_bytes`), the transcript store
(`save_transcription_json`, `load_all_transcripts`), the range filter
(`filter_by_range`), the archive exporter (`download_selected`) and the
upload orchestrator (`upload_audio`), together with theorems checking
the specification's claims about them.

Modelling conventions: wall-clock reads are passed in as already
formatted strings (the code only ever formats the clock); timestamps
obtained from `datetime.fromisoformat` are modelled as `Nat`, with
`datetime.min` as `0`, and the parse itself as an arbitrary function
`String → Option Nat` (`none` standing for a raised `ValueError`);
file-system directories are association lists; Python's stable
`list.sort` is modelled by a stable insertion sort, which any stable
sort agrees with extensionally.
-/

namespace VoiceMemo

/-- Raw audio payload, one entry per byte. -/
abbrev Bytes := List Nat

/-- The fields of a stored transcript JSON object that the listing and
filtering logic inspects: the `"datetime"` field (`none` when absent)
and the `"text"` field (empty when absent).  The remaining persisted
fields (`filename`, `language`, `duration`, `segments`, `source`) are
carried opaquely by the code and never inspected by the logic modelled
here. -/
structure TJson where
  datetime : Option String
  text : String
deriving DecidableEq

/-- One entry of the `uploads_text` directory: a file name plus its
parsed content, `none` modelling a file that cannot be read or parsed
as JSON (the corrupt case caught by the `try`/`except` in
`load_all_transcripts`). -/
structure DirEntry where
  name : String
  content : Option TJson
deriving DecidableEq

/-- A record in the list built by `load_all_transcripts`: the loaded
JSON fields plus the derived `"_dt"` timestamp; `srcName` records which
transcript file the record was loaded from. -/
structure Item where
  srcName : String
  datetime : Option String
  dt : Option Nat
  text : String
deriving DecidableEq

/-- Python's `str.endswith`. -/
def strEndsWith (s suffix : String) : Bool :=
  suffix.toList.isSuffixOf s.toList

/-- Derivation of the `"_dt"` field in `load_all_transcripts`: a
missing or falsy (empty) `"datetime"` field gives `None`, otherwise
`datetime.fromisoformat` is attempted and a `ValueError` gives `None`. -/
def deriveDt (fromiso : String → Option Nat) (dtStr : Option String) : Option Nat :=
  match dtStr with
  | none => none
  | some s => if s = "" then none else fromiso s

/-- Sort key of `items.sort(key=lambda x: x.get("_dt") or datetime.min, reverse=True)`:
a record with a missing timestamp sorts as `datetime.min`, modelled as `0`. -/
def sortKey (it : Item) : Nat :=
  it.dt.getD 0

/-- Descending-key order used by the final sort (`reverse=True`). -/
def keyGe (a b : Item) : Prop :=
  sortKey b ≤ sortKey a

instance : DecidableRel keyGe :=
  fun a b => inferInstanceAs (Decidable (sortKey b ≤ sortKey a))

instance : IsTotal Item keyGe :=
  ⟨fun a b => Nat.le_total (sortKey b) (sortKey a)⟩

instance : IsTrans Item keyGe :=
  ⟨fun _ _ _ h1 h2 => Nat.le_trans h2 h1⟩

/-- Lexicographic comparison of code-point sequences, the order Python
uses to compare strings. -/
def charListLt : List Char → List Char → Bool
  | _, [] => false
  | [], _ :: _ => true
  | a :: as, b :: bs =>
      if a.toNat < b.toNat then true
      else if b.toNat < a.toNat then false
      else charListLt as bs

/-- Python's `<` on strings: lexicographic by code point. -/
def strLt (a b : String) : Bool :=
  charListLt a.toList b.toList

/-- Python's `<=` on strings. -/
def strLe (a b : String) : Bool :=
  !(strLt b a)

/-- Name order used by `sorted(os.listdir(TEXT_DIR))`. -/
def entryLe (a b : DirEntry) : Prop :=
  strLe a.name b.name = true

instance : DecidableRel entryLe :=
  fun a b => inferInstanceAs (Decidable (strLe a.name b.name = true))

/-- Processing of one directory entry in the `load_all_transcripts`
loop: names not ending in `.json` are skipped, unreadable or
unparsable files are logged and skipped, and a parsed record gets the
derived `"_dt"` field added. -/
def entryToItem (fromiso : String → Option Nat) (e : DirEntry) : Option Item :=
  if strEndsWith e.name ".json" then
    match e.content with
    | some j => some ⟨e.name, j.datetime, deriveDt fromiso j.datetime, j.text⟩
    | none => none
  else none

/-- The record list before the timestamp sort: the directory is
enumerated in sorted name order and entries are loaded or skipped one
by one. -/
def loadItems (fromiso : String → Option Nat) (dir : List DirEntry) : List Item :=
  (List.insertionSort entryLe dir).filterMap (entryToItem fromiso)

/-- Model of `load_all_transcripts`: enumerate `uploads_text` in sorted
name order, load each `.json` file (skipping corrupt ones), then
stable-sort the records by derived timestamp, descending, with missing
timestamps sorting as `datetime.min`. -/
def load_all_transcripts (fromiso : String → Option Nat) (dir : List DirEntry) : List Item :=
  List.insertionSort keyGe (loadItems fromiso dir)

/-- Predicate of the record-keeping test in the `filter_by_range` loop:
a record with no `"_dt"` is dropped; otherwise it is dropped when a
present start bound exceeds it or a present end bound is below it. -/
def keepItem (start_dt end_dt : Option Nat) (it : Item) : Bool :=
  match it.dt with
  | none => false
  | some dt =>
      (start_dt.all fun s => decide (s ≤ dt)) && (end_dt.all fun e => decide (dt ≤ e))

/-- Model of `filter_by_range`: with both bounds `None` the input list
is returned as is; otherwise records are filtered by `keepItem`. -/
def filter_by_range (items : List Item) (start_dt end_dt : Option Nat) : List Item :=
  match start_dt, end_dt with
  | none, none => items
  | _, _ => items.filter (keepItem start_dt end_dt)

/-- Python's `os.path.join` for a directory and a relative file name. -/
def ospath_join (d f : String) : String :=
  d ++ "/" ++ f

/-- Python's `os.path.basename`: the part after the last separator. -/
def basename (p : String) : String :=
  String.mk ((p.toList.reverse.takeWhile fun c => c != '/').reverse)

/-- Python's `os.path.splitext(s)[0]`: the name with its last extension
removed, where a run of leading dots does not start an extension. -/
def splitext_root (s : String) : String :=
  let cs := s.toList
  let extLen := (cs.reverse.takeWhile fun c => c != '.').length
  if extLen < cs.length then
    let stem := cs.take (cs.length - extLen - 1)
    if stem.all (fun c => c == '.') then s else String.mk stem
  else s

/-- The WAV content directory; the constant `BASE_DIR` prefix of the
code is elided, as it cancels everywhere the claims look. -/
def UPLOAD_DIR : String := "uploads_raw"

/-- The transcript JSON content directory, `BASE_DIR` prefix elided. -/
def TEXT_DIR : String := "uploads_text"

/-- The generated blob name `uploaded_<YYYYMMDD>_<HHMMSS>.wav`, taking
the already formatted `strftime` output. -/
def wavFilename (nowStr : String) : String :=
  "uploaded_" ++ nowStr ++ ".wav"

/-- The two on-disk directories, as association lists; a write to an
existing name shadows the previous binding, modelling overwrite. -/
structure ServerState where
  uploads : List (String × Bytes)
  texts : List DirEntry
deriving DecidableEq

/-- Model of `save_wav_bytes`: generate the timestamped name, write the
bytes under it in the upload directory and return the save path. -/
def save_wav_bytes (nowStr : String) (data : Bytes) (st : ServerState) :
    String × ServerState :=
  let filename := wavFilename nowStr
  let save_path := ospath_join UPLOAD_DIR filename
  (save_path, { st with uploads := (filename, data) :: st.uploads })

/-- Result of the opaque transcription engine; the `duration` and
`segments` fields (floating point) are carried opaquely by the code and
never inspected, so they are not modelled. -/
structure SttResult where
  text : String
  language : Option String
deriving DecidableEq

/-- Model of `save_transcription_json`: derive the JSON name from the
WAV base name, store the metadata record (whose `"datetime"` field is
an independent clock read serialized with `isoformat`) and return the
JSON path. -/
def save_transcription_json (isoNow : String) (wav_path : String) (stt : SttResult)
    (st : ServerState) : String × ServerState :=
  let wav_filename := basename wav_path
  let json_filename := splitext_root wav_filename ++ ".json"
  let json_path := ospath_join TEXT_DIR json_filename
  let meta : TJson := ⟨some isoNow, stt.text⟩
  (json_path, { st with texts := ⟨json_filename, some meta⟩ :: st.texts })

/-- Responses of `POST /upload_audio`, carrying status code and either
the error message or the success payload. -/
inductive UploadResp where
  | err (code : Nat) (message : String)
  | ok (filename json text : String) (language : Option String)
deriving DecidableEq

/-- Model of the `upload_audio` handler.  The transcription black box
is passed in as its outcome for this request: `Except.error e` models a
raised exception with text `e`.  The two clock reads (`strftime` for
the WAV name, `isoformat` for the JSON metadata) are passed in
formatted. -/
def upload_audio (nowStr isoNow : String) (transcription : Except String SttResult)
    (data : Bytes) (st : ServerState) : UploadResp × ServerState :=
  if data.isEmpty then (.err 400 "no data", st)
  else
    let r1 := save_wav_bytes nowStr data st
    match transcription with
    | .error e => (.err 500 ("stt failed: " ++ e), r1.2)
    | .ok stt =>
        let r2 := save_transcription_json isoNow r1.1 stt r1.2
        (.ok (basename r1.1) (basename r2.1) stt.text stt.language, r2.2)

/-- File lookup in the upload directory, as used by `os.path.isfile`
plus `zf.write` on `os.path.join(UPLOAD_DIR, name)`. -/
def lookupFile (st : ServerState) (name : String) : Option Bytes :=
  st.uploads.lookup name

/-- Responses of `POST /download_selected`: an error, or the archive as
its list of entries (`arcname`, bytes); the compression wrapper adds no
structure the claims depend on. -/
inductive DlResp where
  | err (code : Nat) (message : String)
  | zip (entries : List (String × Bytes))
deriving DecidableEq

/-- The archive-building loop of `download_selected`: each requested
name that is a file in the upload directory is added under its own
name, others are skipped. -/
def buildZipEntries (st : ServerState) (filenames : List String) :
    List (String × Bytes) :=
  filenames.filterMap fun n => (lookupFile st n).map fun b => (n, b)

/-- Model of the `download_selected` handler. -/
def download_selected (st : ServerState) (filenames : List String) : DlResp :=
  if filenames.isEmpty then .err 400 "no files selected"
  else .zip (buildZipEntries st filenames)

/-- Tie order for the stability claims: two records with equal sort
keys must appear in ascending source-file-name order. -/
def tieLt (a b : Item) : Prop :=
  sortKey a = sortKey b → strLt a.srcName b.srcName = true

/-- A parse function that fails on every input, for concrete runs. -/
def fromiso0 : String → Option Nat := fun _ => none

/-- A parse function recognising the single literal "7", for concrete
runs that need one successfully parsed timestamp. -/
def fromiso7 : String → Option Nat := fun s => if s = "7" then some 7 else none

/-- The state after an upload whose transcription raised: the orphan
case, one audio blob and no transcript. -/
def orphanState : ServerState :=
  (upload_audio "20240101_000000" "2024-01-01T00:00:01"
    (Except.error "boom") [1, 2] ⟨[], []⟩).2

/-- A transcript directory with one unparsable-timestamp record, one
missing-timestamp record and one parsable-timestamp record. -/
def d4 : List DirEntry :=
  [⟨"a.json", some ⟨some "x", "t1"⟩⟩,
   ⟨"b.json", some ⟨none, "t2"⟩⟩,
   ⟨"c.json", some ⟨some "7", "t3"⟩⟩]

/-- A transcript directory with one well-formed and one corrupt file. -/
def d9 : List DirEntry :=
  [⟨"good.json", some ⟨some "7", "hello"⟩⟩, ⟨"bad.json", none⟩]

/-- A transcript directory with two records whose derived timestamps
are both missing, hence tie under the sort key. -/
def d10 : List DirEntry :=
  [⟨"b.json", some ⟨none, "t2"⟩⟩, ⟨"a.json", some ⟨none, "t1"⟩⟩]

/-- A server state holding exactly one uploaded blob. -/
def st7 : ServerState :=
  ⟨[("uploaded_20240101_000000.wav", [1, 2])], []⟩

/-- A one-record list with a parsed timestamp, for concrete runs of the
range filter. -/
def items5 : List Item :=
  [⟨"a.json", some "7", some 7, "t"⟩]

/-! ### Helper lemmas about the code-point order -/

theorem char_toNat_inj {a b : Char} (h : a.toNat = b.toNat) : a = b := by
  apply Char.ext
  apply UInt32.eq_of_toBitVec_eq
  exact BitVec.eq_of_toNat_eq h

theorem charListLt_trans : ∀ l1 l2 l3 : List Char,
    charListLt l1 l2 = true → charListLt l2 l3 = true → charListLt l1 l3 = true := by
  intro l1
  induction l1 with
  | nil =>
      intro l2 l3 h1 h2
      cases l3 with
      | nil =>
          cases l2 with
          | nil => exact h1
          | cons b bs => simp [charListLt] at h2
      | cons c cs => simp [charListLt]
  | cons a as ih =>
      intro l2 l3 h1 h2
      cases l2 with
      | nil => simp [charListLt] at h1
      | cons b bs =>
          cases l3 with
          | nil => simp [charListLt] at h2
          | cons c cs =>
              simp only [charListLt] at h1 h2 ⊢
              by_cases hab : a.toNat < b.toNat
              · rw [if_pos hab] at h1
                by_cases hbc : b.toNat < c.toNat
                · rw [if_pos (by omega)]
                · rw [if_neg hbc] at h2
                  by_cases hcb : c.toNat < b.toNat
                  · rw [if_pos hcb] at h2
                    exact Bool.noConfusion h2
                  · rw [if_pos (by omega)]
              · rw [if_neg hab] at h1
                by_cases hba : b.toNat < a.toNat
                · rw [if_pos hba] at h1
                  exact Bool.noConfusion h1
                · rw [if_neg hba] at h1
                  by_cases hbc : b.toNat < c.toNat
                  · rw [if_pos (by omega)]
                  · rw [if_neg hbc] at h2
                    by_cases hcb : c.toNat < b.toNat
                    · rw [if_pos hcb] at h2
                      exact Bool.noConfusion h2
                    · rw [if_neg hcb] at h2
                      rw [if_neg (by omega), if_neg (by omega)]
                      exact ih bs cs h1 h2

theorem charListLt_irrefl : ∀ l : List Char, charListLt l l = false := by
  intro l
  induction l with
  | nil => rfl
  | cons a as ih =>
      simp only [charListLt]
      rw [if_neg (by omega), if_neg (by omega)]
      exact ih

theorem charListLt_conn : ∀ l1 l2 : List Char,
    charListLt l1 l2 = false → charListLt l2 l1 = false → l1 = l2 := by
  intro l1
  induction l1 with
  | nil =>
      intro l2 h1 _h2
      cases l2 with
      | nil => rfl
      | cons b bs => exact Bool.noConfusion h1
  | cons a as ih =>
      intro l2 h1 h2
      cases l2 with
      | nil => exact Bool.noConfusion h2
      | cons b bs =>
          simp only [charListLt] at h1 h2
          by_cases hab : a.toNat < b.toNat
          · rw [if_pos hab] at h1
            exact Bool.noConfusion h1
          · by_cases hba : b.toNat < a.toNat
            · rw [if_pos hba] at h2
              exact Bool.noConfusion h2
            · rw [if_neg hab, if_neg hba] at h1
              rw [if_neg hba, if_neg hab] at h2
              have hc : a = b := char_toNat_inj (by omega)
              rw [hc, ih bs h1 h2]

theorem string_eq_of_toList_eq {a b : String} (h : a.toList = b.toList) : a = b := by
  cases a
  cases b
  simp only [String.toList] at h
  rw [h]

theorem strLe_total (a b : String) : strLe a b = true ∨ strLe b a = true := by
  unfold strLe strLt
  by_cases h : charListLt b.toList a.toList = true
  · right
    cases h2 : charListLt a.toList b.toList with
    | false => simp [h2]
    | true =>
        have h3 := charListLt_trans _ _ _ h2 h
        rw [charListLt_irrefl] at h3
        exact Bool.noConfusion h3
  · left
    simp [Bool.not_eq_true] at h
    simp [h]

theorem strLe_trans (a b c : String) (h1 : strLe a b = true) (h2 : strLe b c = true) :
    strLe a c = true := by
  unfold strLe strLt at h1 h2 ⊢
  rw [Bool.not_eq_true'] at h1 h2 ⊢
  cases h3 : charListLt c.toList a.toList with
  | false => rfl
  | true =>
      cases h4 : charListLt a.toList b.toList with
      | true =>
          have h5 := charListLt_trans _ _ _ h3 h4
          rw [h2] at h5
          exact Bool.noConfusion h5
      | false =>
          have hab := charListLt_conn _ _ h4 h1
          rw [hab] at h3
          rw [h2] at h3
          exact Bool.noConfusion h3

theorem strLt_of_le_of_ne {a b : String} (h1 : strLe a b = true) (h2 : a ≠ b) :
    strLt a b = true := by
  unfold strLe strLt at h1
  unfold strLt
  rw [Bool.not_eq_true'] at h1
  cases h3 : charListLt a.toList b.toList with
  | true => rfl
  | false => exact absurd (string_eq_of_toList_eq (charListLt_conn _ _ h3 h1)) h2

theorem entryLe_total : ∀ a b : DirEntry, entryLe a b ∨ entryLe b a :=
  fun a b => strLe_total a.name b.name

theorem entryLe_trans : ∀ a b c : DirEntry, entryLe a b → entryLe b c → entryLe a c :=
  fun a b c => strLe_trans a.name b.name c.name

/-! ### Helper lemmas about paths -/

theorem takeWhile_all_append (p : Char → Bool) (l1 : List Char) (c : Char) (l2 : List Char)
    (h1 : ∀ x ∈ l1, p x = true) (hc : p c = false) :
    (l1 ++ c :: l2).takeWhile p = l1 := by
  induction l1 with
  | nil => simp [List.takeWhile_cons, hc]
  | cons x xs ih =>
      have hx := h1 x (List.mem_cons_self x xs)
      simp only [List.cons_append, List.takeWhile_cons, hx, if_true]
      rw [ih fun y hy => h1 y (List.mem_cons_of_mem x hy)]

theorem basename_join (d f : String) (hf : ∀ c ∈ f.toList, (c != '/') = true) :
    basename (ospath_join d f) = f := by
  unfold basename ospath_join
  have h1 : (d ++ "/" ++ f).toList = d.toList ++ '/' :: f.toList := by
    simp [String.toList, String.data_append]
  rw [h1, List.reverse_append, List.reverse_cons, List.append_assoc, List.singleton_append]
  rw [takeWhile_all_append (fun c => c != '/') f.toList.reverse '/' d.toList.reverse
    (fun x hx => hf x (List.mem_reverse.mp hx)) (by simp)]
  rw [List.reverse_reverse]
  rfl

/-! ### Claim theorems -/

/-- C1 (counterexample): after an upload whose transcription raised,
exactly one audio record is stored but the query layer surfaces no
view record at all for it, rather than one with empty text. -/
theorem c1_counterexample :
    orphanState.uploads.length = 1
    ∧ load_all_transcripts fromiso0 orphanState.texts = [] := ⟨rfl, rfl⟩

/-- C2 (counterexample): `save_wav_bytes` does not return the bare
generated filename. -/
theorem c2_counterexample :
    (save_wav_bytes "20240101_000000" [1] ⟨[], []⟩).1 ≠ wavFilename "20240101_000000" := by
  decide

/-- C2 (amended): for every byte payload, `save_wav_bytes` stores the
bytes under the generated name `uploaded_<now>.wav` inside the content
directory but returns the full save path (directory joined with the
name), not the bare filename; the bare name under which the bytes were
stored is the basename of the returned path. -/
theorem c2_returns_full_path (nowStr : String) (data : Bytes) (st : ServerState)
    (h : ∀ c ∈ nowStr.toList, (c != '/') = true) :
    (save_wav_bytes nowStr data st).1 = ospath_join UPLOAD_DIR (wavFilename nowStr)
    ∧ basename (save_wav_bytes nowStr data st).1 = wavFilename nowStr
    ∧ (save_wav_bytes nowStr data st).2.uploads = (wavFilename nowStr, data) :: st.uploads := by
  refine ⟨rfl, ?_, rfl⟩
  show basename (ospath_join UPLOAD_DIR (wavFilename nowStr)) = wavFilename nowStr
  apply basename_join
  intro c hc
  have h2 : (wavFilename nowStr).toList = "uploaded_".toList ++ (nowStr.toList ++ ".wav".toList) := by
    simp [wavFilename, String.toList, String.data_append]
  rw [h2] at hc
  rcases List.mem_append.mp hc with hc1 | hc2
  · exact (by decide : ∀ x ∈ "uploaded_".toList, (x != '/') = true) c hc1
  · rcases List.mem_append.mp hc2 with hc3 | hc4
    · exact h c hc3
    · exact (by decide : ∀ x ∈ ".wav".toList, (x != '/') = true) c hc4

theorem c2_returns_full_path_witness :
    basename (save_wav_bytes "20240101_000000" [1] ⟨[], []⟩).1
      = wavFilename "20240101_000000" :=
  (c2_returns_full_path "20240101_000000" [1] ⟨[], []⟩ (by decide)).2.1

/-- C3: when the transcription step raises after the audio blob has
been written, the handler returns the transcribe-stage 500 response,
the blob stays stored with exactly the uploaded bytes, and the
transcript directory is unchanged (no transcript JSON is created). -/
theorem c3_transcribe_failure_preserves_blob (nowStr isoNow e : String) (data : Bytes)
    (st : ServerState) (h : data ≠ []) :
    upload_audio nowStr isoNow (Except.error e) data st
      = (UploadResp.err 500 ("stt failed: " ++ e),
         ⟨(wavFilename nowStr, data) :: st.uploads, st.texts⟩) := by
  cases data with
  | nil => exact absurd rfl h
  | cons b bs => rfl

theorem c3_transcribe_failure_preserves_blob_witness :
    upload_audio "20240101_000000" "2024-01-01T00:00:01" (Except.error "boom") [1, 2] ⟨[], []⟩
      = (UploadResp.err 500 "stt failed: boom",
         ⟨[("uploaded_20240101_000000.wav", [1, 2])], []⟩) := by
  rw [c3_transcribe_failure_preserves_blob "20240101_000000" "2024-01-01T00:00:01" "boom"
    [1, 2] ⟨[], []⟩ (by decide)]
  decide

/-- C6: with both bounds absent, `filter_by_range` returns its input
list unchanged, including records with missing timestamps. -/
theorem c6_no_bounds_identity (items : List Item) :
    filter_by_range items none none = items := rfl

/-- C8: an upload request with an empty body is rejected with the 400
"no data" response, and the stored state is unchanged: no audio blob
and no transcript file is created. -/
theorem c8_empty_payload_rejected (nowStr isoNow : String)
    (transcription : Except String SttResult) (st : ServerState) :
    upload_audio nowStr isoNow transcription [] st = (UploadResp.err 400 "no data", st) := rfl

/-! ### Helper lemmas about the sorts -/

theorem filter_key_orderedInsert (k : Nat) (a : Item) (m : List Item) :
    (List.orderedInsert keyGe a m).filter (fun it => sortKey it == k)
      = if sortKey a == k
          then a :: m.filter (fun it => sortKey it == k)
          else m.filter (fun it => sortKey it == k) := by
  induction m with
  | nil =>
      cases h : (sortKey a == k) <;> simp [List.orderedInsert, List.filter_cons, h]
  | cons b bs ih =>
      by_cases hab : keyGe a b
      · simp only [List.orderedInsert, if_pos hab]
        cases h : (sortKey a == k) <;> simp [List.filter_cons, h]
      · simp only [List.orderedInsert, if_neg hab]
        have hab2 : ¬ (sortKey b ≤ sortKey a) := hab
        rw [List.filter_cons, ih, List.filter_cons]
        cases hb : (sortKey b == k) with
        | true =>
            have hbk : sortKey b = k := by simpa using hb
            have hak : (sortKey a == k) = false := by
              simp only [beq_eq_false_iff_ne, ne_eq]
              omega
            simp [hak]
        | false => simp [hb]

theorem filter_key_insertionSort (k : Nat) (l : List Item) :
    (List.insertionSort keyGe l).filter (fun it => sortKey it == k)
      = l.filter (fun it => sortKey it == k) := by
  induction l with
  | nil => rfl
  | cons a l ih =>
      simp only [List.insertionSort]
      rw [filter_key_orderedInsert, ih, List.filter_cons]

theorem tie_orderedInsert (a : Item) (m : List Item)
    (hm : m.Pairwise tieLt) (ha : ∀ b ∈ m, strLt a.srcName b.srcName = true) :
    (List.orderedInsert keyGe a m).Pairwise tieLt := by
  induction m with
  | nil => exact List.pairwise_singleton tieLt a
  | cons b bs ih =>
      rcases List.pairwise_cons.mp hm with ⟨hb, hbs⟩
      by_cases hab : keyGe a b
      · simp only [List.orderedInsert, if_pos hab]
        refine List.pairwise_cons.mpr ⟨?_, hm⟩
        intro x hx _hk
        exact ha x hx
      · simp only [List.orderedInsert, if_neg hab]
        refine List.pairwise_cons.mpr
          ⟨?_, ih hbs fun c hc => ha c (List.mem_cons_of_mem b hc)⟩
        intro x hx
        rcases (List.mem_orderedInsert keyGe).mp hx with hxa | hxm
        · intro hk
          rw [hxa] at hk
          exact absurd (Nat.le_of_eq hk) hab
        · exact hb x hxm

theorem tie_insertionSort (l : List Item)
    (hl : l.Pairwise fun x y => strLt x.srcName y.srcName = true) :
    (List.insertionSort keyGe l).Pairwise tieLt := by
  induction l with
  | nil => exact List.Pairwise.nil
  | cons a l ih =>
      rcases List.pairwise_cons.mp hl with ⟨ha, hl2⟩
      simp only [List.insertionSort]
      refine tie_orderedInsert a _ (ih hl2) ?_
      intro b hb
      exact ha b ((List.perm_insertionSort keyGe l).mem_iff.mp hb)

theorem entryToItem_isSome (fromiso : String → Option Nat) (e : DirEntry) :
    (entryToItem fromiso e).isSome = (strEndsWith e.name ".json" && e.content.isSome) := by
  unfold entryToItem
  by_cases h : strEndsWith e.name ".json" = true
  · rw [if_pos h, h]
    cases e.content <;> simp
  · rw [if_neg h]
    simp only [Bool.not_eq_true] at h
    rw [h]
    simp

theorem entryToItem_srcName (fromiso : String → Option Nat) (e : DirEntry) (it : Item)
    (h : entryToItem fromiso e = some it) : it.srcName = e.name := by
  unfold entryToItem at h
  by_cases hs : strEndsWith e.name ".json" = true
  · rw [if_pos hs] at h
    cases hc : e.content with
    | none =>
        rw [hc] at h
        exact Option.noConfusion h
    | some j =>
        rw [hc] at h
        cases h
        rfl
  · rw [if_neg hs] at h
    exact Option.noConfusion h

theorem entryToItem_eq_some (fromiso : String → Option Nat) (e : DirEntry) (it : Item) :
    entryToItem fromiso e = some it ↔
      strEndsWith e.name ".json" = true
      ∧ e.content = some ⟨it.datetime, it.text⟩
      ∧ it.srcName = e.name
      ∧ it.dt = deriveDt fromiso it.datetime := by
  constructor
  · intro h
    unfold entryToItem at h
    by_cases hs : strEndsWith e.name ".json" = true
    · rw [if_pos hs] at h
      cases hc : e.content with
      | none =>
          rw [hc] at h
          exact Option.noConfusion h
      | some j =>
          rw [hc] at h
          cases h
          exact ⟨hs, rfl, rfl, rfl⟩
    · rw [if_neg hs] at h
      exact Option.noConfusion h
  · rintro ⟨hs, hc, hn, hd⟩
    unfold entryToItem
    rw [if_pos hs, hc]
    refine congrArg some ?_
    cases it
    simp only [Item.mk.injEq]
    simp only at hn hd
    exact ⟨hn.symm, trivial, hd.symm, trivial⟩

theorem loadItems_names_strict (fromiso : String → Option Nat) (dir : List DirEntry)
    (hnd : (dir.map DirEntry.name).Nodup) :
    (loadItems fromiso dir).Pairwise fun x y => strLt x.srcName y.srcName = true := by
  haveI : IsTotal DirEntry entryLe := ⟨entryLe_total⟩
  haveI : IsTrans DirEntry entryLe := ⟨entryLe_trans⟩
  have hsorted : (List.insertionSort entryLe dir).Pairwise entryLe :=
    List.sorted_insertionSort entryLe dir
  have hperm : List.Perm (List.insertionSort entryLe dir) dir :=
    List.perm_insertionSort entryLe dir
  have hnd2 : ((List.insertionSort entryLe dir).map DirEntry.name).Nodup :=
    (hperm.map DirEntry.name).nodup_iff.mpr hnd
  have hne : (List.insertionSort entryLe dir).Pairwise fun a b => a.name ≠ b.name :=
    List.pairwise_map.mp hnd2
  have hstrict : (List.insertionSort entryLe dir).Pairwise
      fun a b => strLt a.name b.name = true :=
    List.Pairwise.imp₂ (fun _ _ h1 h2 => strLt_of_le_of_ne h1 h2) hsorted hne
  unfold loadItems
  apply List.pairwise_filterMap.mpr
  refine List.Pairwise.imp ?_ hstrict
  intro a b hab x hx y hy
  rw [entryToItem_srcName fromiso a x hx, entryToItem_srcName fromiso b y hy]
  exact hab

/-- C1 (amended): the query layer surfaces exactly one view record per
well-formed transcript file (a directory entry whose name ends in
`.json` and whose content parses); an audio record with no transcript
contributes no view record at all. -/
theorem c1_one_view_record_per_transcript (fromiso : String → Option Nat)
    (dir : List DirEntry) :
    (load_all_transcripts fromiso dir).length
      = dir.countP fun e => strEndsWith e.name ".json" && e.content.isSome := by
  unfold load_all_transcripts loadItems
  rw [List.length_insertionSort, List.length_filterMap_eq_countP]
  rw [List.countP_congr fun e _he => by rw [entryToItem_isSome fromiso e]]
  exact (List.perm_insertionSort entryLe dir).countP_eq _

/-- C4: for every input directory, the listing is sorted by the derived
timestamp, descending, is a permutation of the loaded records, is
stable (records of any fixed key keep their pre-sort order), and a
record with a missing timestamp is followed only by records of the
minimal sort key. -/
theorem c4_listing_sorted_descending_stable (fromiso : String → Option Nat)
    (dir : List DirEntry) :
    List.Sorted keyGe (load_all_transcripts fromiso dir)
    ∧ List.Perm (load_all_transcripts fromiso dir) (loadItems fromiso dir)
    ∧ (∀ k : Nat, (load_all_transcripts fromiso dir).filter (fun it => sortKey it == k)
        = (loadItems fromiso dir).filter (fun it => sortKey it == k))
    ∧ (∀ i j : Nat, ∀ hi : i < (load_all_transcripts fromiso dir).length,
        ∀ hj : j < (load_all_transcripts fromiso dir).length, i < j →
        ((load_all_transcripts fromiso dir).get ⟨i, hi⟩).dt = none →
        sortKey ((load_all_transcripts fromiso dir).get ⟨j, hj⟩) = 0) := by
  refine ⟨List.sorted_insertionSort keyGe (loadItems fromiso dir),
    List.perm_insertionSort keyGe (loadItems fromiso dir),
    fun k => filter_key_insertionSort k (loadItems fromiso dir), ?_⟩
  intro i j hi hj hij hnone
  have hs : List.Sorted keyGe (load_all_transcripts fromiso dir) :=
    List.sorted_insertionSort keyGe (loadItems fromiso dir)
  have hr := hs.rel_get_of_lt (show (⟨i, hi⟩ : Fin _) < ⟨j, hj⟩ from hij)
  have h0 : sortKey ((load_all_transcripts fromiso dir).get ⟨i, hi⟩) = 0 := by
    unfold sortKey
    rw [hnone]
    rfl
  have hr2 : sortKey ((load_all_transcripts fromiso dir).get ⟨j, hj⟩)
      ≤ sortKey ((load_all_transcripts fromiso dir).get ⟨i, hi⟩) := hr
  omega

theorem c4_listing_sorted_descending_stable_witness :
    List.Sorted keyGe (load_all_transcripts fromiso7 d4)
    ∧ sortKey ((load_all_transcripts fromiso7 d4).get ⟨2, by decide⟩) = 0 :=
  ⟨(c4_listing_sorted_descending_stable fromiso7 d4).1,
   (c4_listing_sorted_descending_stable fromiso7 d4).2.2.2 1 2 (by decide) (by decide)
     (by decide) (by decide)⟩

/-- C9: during listing, a transcript file that cannot be read or parsed
is skipped and enumeration continues: every well-formed `.json` entry
still yields its record in the result, and every result record comes
from a well-formed `.json` entry; the listing is a total function, so
it never raises. -/
theorem c9_corrupt_files_skipped (fromiso : String → Option Nat) (dir : List DirEntry) :
    (∀ e ∈ dir, strEndsWith e.name ".json" = true → ∀ j, e.content = some j →
      ∃ it ∈ load_all_transcripts fromiso dir,
        it.srcName = e.name ∧ it.datetime = j.datetime
        ∧ it.dt = deriveDt fromiso j.datetime ∧ it.text = j.text)
    ∧ (∀ it ∈ load_all_transcripts fromiso dir,
        ∃ e ∈ dir, strEndsWith e.name ".json" = true
          ∧ e.content = some ⟨it.datetime, it.text⟩ ∧ it.srcName = e.name
          ∧ it.dt = deriveDt fromiso it.datetime) := by
  constructor
  · intro e he hs j hj
    refine ⟨⟨e.name, j.datetime, deriveDt fromiso j.datetime, j.text⟩, ?_, rfl, rfl, rfl, rfl⟩
    apply (List.perm_insertionSort keyGe (loadItems fromiso dir)).mem_iff.mpr
    unfold loadItems
    apply List.mem_filterMap.mpr
    refine ⟨e, (List.perm_insertionSort entryLe dir).mem_iff.mpr he, ?_⟩
    unfold entryToItem
    rw [if_pos hs, hj]
  · intro it hit
    have hit2 : it ∈ loadItems fromiso dir :=
      (List.perm_insertionSort keyGe (loadItems fromiso dir)).mem_iff.mp hit
    unfold loadItems at hit2
    rcases List.mem_filterMap.mp hit2 with ⟨e, he, hee⟩
    rcases (entryToItem_eq_some fromiso e it).mp hee with ⟨hs, hc, hn, hd⟩
    exact ⟨e, (List.perm_insertionSort entryLe dir).mem_iff.mp he, hs, hc, hn, hd⟩

theorem c9_corrupt_files_skipped_witness :
    ∃ it ∈ load_all_transcripts fromiso7 d9,
      it.srcName = "good.json" ∧ it.datetime = some "7"
      ∧ it.dt = deriveDt fromiso7 (some "7") ∧ it.text = "hello" :=
  (c9_corrupt_files_skipped fromiso7 d9).1 ⟨"good.json", some ⟨some "7", "hello"⟩⟩
    (by decide) (by decide) ⟨some "7", "hello"⟩ rfl

/-- C10: when the names in the transcript directory are distinct (as
directory listings are), records whose derived timestamps compare equal
under the sort key appear in the listing in ascending transcript file
name order: the enumeration is name-sorted and the timestamp sort is
stable, so the output order is fully deterministic. -/
theorem c10_ties_ordered_by_filename (fromiso : String → Option Nat) (dir : List DirEntry)
    (hnd : (dir.map DirEntry.name).Nodup) :
    ∀ i j : Nat, ∀ hi : i < (load_all_transcripts fromiso dir).length,
      ∀ hj : j < (load_all_transcripts fromiso dir).length, i < j →
      sortKey ((load_all_transcripts fromiso dir).get ⟨i, hi⟩)
        = sortKey ((load_all_transcripts fromiso dir).get ⟨j, hj⟩) →
      strLt ((load_all_transcripts fromiso dir).get ⟨i, hi⟩).srcName
        ((load_all_transcripts fromiso dir).get ⟨j, hj⟩).srcName = true := by
  intro i j hi hj hij hk
  have hpw : (load_all_transcripts fromiso dir).Pairwise tieLt :=
    tie_insertionSort (loadItems fromiso dir) (loadItems_names_strict fromiso dir hnd)
  exact List.pairwise_iff_get.mp hpw ⟨i, hi⟩ ⟨j, hj⟩ hij hk

theorem c10_ties_ordered_by_filename_witness :
    strLt ((load_all_transcripts fromiso0 d10).get ⟨0, by decide⟩).srcName
      ((load_all_transcripts fromiso0 d10).get ⟨1, by decide⟩).srcName = true :=
  c10_ties_ordered_by_filename fromiso0 d10 (by decide) 0 1 (by decide) (by decide)
    (by decide) (by decide)

/-- C5: with at least one bound present, a record is kept by the range
filter exactly when its timestamp is present and lies within the
present bounds, inclusively; a record with a missing timestamp is
always dropped, and an inverted range (start above end) keeps
nothing. -/
theorem c5_range_filter_characterization (items : List Item) (sb eb : Option Nat)
    (h : sb ≠ none ∨ eb ≠ none) :
    filter_by_range items sb eb = items.filter (keepItem sb eb)
    ∧ (∀ it, it ∈ filter_by_range items sb eb ↔ it ∈ items ∧ keepItem sb eb it = true)
    ∧ (∀ it, keepItem sb eb it = true ↔
        ∃ dt, it.dt = some dt ∧ (∀ s, sb = some s → s ≤ dt) ∧ (∀ e, eb = some e → dt ≤ e))
    ∧ (∀ it, it.dt = none → keepItem sb eb it = false)
    ∧ (∀ s e, sb = some s → eb = some e → e < s → filter_by_range items sb eb = []) := by
  have h1 : filter_by_range items sb eb = items.filter (keepItem sb eb) := by
    cases sb with
    | none =>
        cases eb with
        | none =>
            rcases h with h | h
            · exact absurd rfl h
            · exact absurd rfl h
        | some e => rfl
    | some s => rfl
  have h3 : ∀ it, keepItem sb eb it = true ↔
      ∃ dt, it.dt = some dt ∧ (∀ s, sb = some s → s ≤ dt) ∧ (∀ e, eb = some e → dt ≤ e) := by
    intro it
    unfold keepItem
    cases hdt : it.dt with
    | none => simp
    | some dt => cases sb <;> cases eb <;> simp [Option.all]
  have h4 : ∀ it, it.dt = none → keepItem sb eb it = false := by
    intro it hdt
    simp only [keepItem, hdt]
  have h5 : ∀ s e, sb = some s → eb = some e → e < s → filter_by_range items sb eb = [] := by
    intro s e hs he hlt
    rw [h1]
    apply List.filter_eq_nil_iff.mpr
    intro it _hit hkeep
    rcases (h3 it).mp hkeep with ⟨dt, _hdt, hges, hlee⟩
    have hg := hges s hs
    have hl := hlee e he
    omega
  refine ⟨h1, ?_, h3, h4, h5⟩
  intro it
  rw [h1]
  exact List.mem_filter

theorem c5_range_filter_characterization_witness :
    filter_by_range items5 (some 9) (some 3) = [] :=
  (c5_range_filter_characterization items5 (some 9) (some 3)
    (Or.inl (by decide))).2.2.2.2 9 3 rfl rfl (by decide)

/-- C7 helper: the archive entry names are exactly the requested names
that exist in the blob directory. -/
theorem map_fst_buildZipEntries (st : ServerState) (names : List String) :
    (buildZipEntries st names).map Prod.fst
      = names.filter fun n => (lookupFile st n).isSome := by
  induction names with
  | nil => rfl
  | cons n ns ih =>
      unfold buildZipEntries at ih ⊢
      rw [List.filterMap_cons, List.filter_cons]
      cases hl : lookupFile st n with
      | none => simpa [hl] using ih
      | some b => simpa [hl] using ih

/-- C7 helper: every archive entry holds the stored bytes of its own
name. -/
theorem mem_buildZipEntries (st : ServerState) (names : List String) :
    ∀ p ∈ buildZipEntries st names, lookupFile st p.1 = some p.2 := by
  intro p hp
  unfold buildZipEntries at hp
  rcases List.mem_filterMap.mp hp with ⟨n, _hn, hmap⟩
  cases hl : lookupFile st n with
  | none =>
      rw [hl] at hmap
      exact Option.noConfusion hmap
  | some b =>
      rw [hl] at hmap
      simp only [Option.map_some'] at hmap
      cases hmap
      exact hl

/-- C7: for every non-empty selection the handler returns an archive
whose entries are exactly the requested names that exist as files in
the blob directory, each stored under its own name with its stored
bytes; requested names with no blob are silently skipped, and an
archive with zero entries is still a success, never an error. -/
theorem c7_archive_entries (st : ServerState) (filenames : List String)
    (h : filenames ≠ []) :
    download_selected st filenames = DlResp.zip (buildZipEntries st filenames)
    ∧ (buildZipEntries st filenames).map Prod.fst
        = filenames.filter (fun n => (lookupFile st n).isSome)
    ∧ (∀ p ∈ buildZipEntries st filenames, lookupFile st p.1 = some p.2) := by
  refine ⟨?_, map_fst_buildZipEntries st filenames, mem_buildZipEntries st filenames⟩
  have hne : filenames.isEmpty = false := by
    cases filenames with
    | nil => exact absurd rfl h
    | cons a l => rfl
  simp [download_selected, hne]

theorem c7_archive_entries_witness :
    download_selected st7 ["uploaded_20240101_000000.wav", "missing.wav"]
      = DlResp.zip [("uploaded_20240101_000000.wav", [1, 2])] := by
  rw [(c7_archive_entries st7 ["uploaded_20240101_000000.wav", "missing.wav"] (by decide)).1]
  decide

end VoiceMemo
